import Mathlib

/-!
Verification of the HE-SEAL graph executor (he-transformer).

The development shallowly embeds the modulus/scale management protocol, the
executor's kernel-dispatch logic, the client-aided nonlinear offload, and the
client-mode checks of `he_seal_executable.cpp`.  CKKS ciphertexts are modelled
ideally: a ciphertext carries its chain index, its scale, and the exact
plaintext value it decrypts to; modulus switching and rescaling act on chain
index and scale and preserve the decrypted value, which is how the underlying
SEAL primitives behave up to encoding noise.
-/

namespace HETransformer

/-- The value of `std::numeric_limits of size_t ::max()` on a 64-bit platform. -/
def SIZE_MAX : Nat := 2 ^ 64 - 1

/-- Modelled from the spec: an ideal CKKS ciphertext handle.  The spec's
"Ciphertext Handle" carries a position in the modulus chain (`chain_index`),
a `scale`, and polynomial data; the polynomial data is modelled by the exact
plaintext value it decrypts to (scales are exact rationals, so encoding noise
and scale drift are zero in the model). -/
structure Ciphertext where
  chainIndex : Nat
  scale : ℚ
  value : ℚ
  deriving DecidableEq, Repr

/-- Modelled from the spec: `mod_switch_to_next` moves a ciphertext one step
down the modulus chain; the scale and the decrypted value are unchanged. -/
def modSwitchToNext (c : Ciphertext) : Ciphertext :=
  { c with chainIndex := c.chainIndex - 1 }

/-- Modelled from the spec: `rescale_to_next` moves a ciphertext one step down
the modulus chain and divides its scale by the prime dropped at that step
(`primeAt i` is the prime used when rescaling from chain index `i`); the
decrypted value is preserved. -/
def rescaleToNext (primeAt : Nat → ℕ) (c : Ciphertext) : Ciphertext :=
  { c with chainIndex := c.chainIndex - 1,
           scale := c.scale / (primeAt c.chainIndex : ℚ) }

/-- Modelled from the spec: mod-switch a ciphertext downward until its chain
index reaches `target` (a no-op when it is already at or below `target`). -/
def modSwitchTo (c : Ciphertext) (target : Nat) : Ciphertext :=
  modSwitchToNext^[c.chainIndex - target] c

/-- Modelled from the spec: decryption of the ideal ciphertext recovers the
plaintext value it carries. -/
def decrypt (c : Ciphertext) : ℚ := c.value

/-- A prior modulus operation applied to an operand before matching, as in the
`match_modulus_and_scale_inplace` test (part_000, lines 113-181). -/
inductive ModOp where
  | modSwitch
  | rescale
  deriving DecidableEq, Repr

/-- Applies a sequence of prior mod-switch / rescale operations. -/
def applyModOps (primeAt : Nat → ℕ) : List ModOp → Ciphertext → Ciphertext
  | [], c => c
  | ModOp.modSwitch :: ops, c => applyModOps primeAt ops (modSwitchToNext c)
  | ModOp.rescale :: ops, c => applyModOps primeAt ops (rescaleToNext primeAt c)

/-- Modelled from the spec: a freshly encrypted ciphertext sits at the top of
the modulus chain (`chain index L`) with the nominal scale `s0` and decrypts
to the encoded value `v`. -/
def encryptFresh (L : Nat) (s0 : ℚ) (v : ℚ) : Ciphertext :=
  { chainIndex := L, scale := s0, value := v }

/-- Modelled from the spec (section 4.2): `match_modulus_and_scale_inplace`.
The implementation (seal_util.cpp) is not among the sources; only its test
(part_000, lines 113-181) and the spec describe it.  Step 1 mod-switches the
operand with the larger chain index down to the other's index.  Step 2: equal
scales succeed (in the exact-rational model the epsilon drift of the spec is
zero, so the epsilon-snap branch coincides with scale equality); scales that
differ by exactly the chain prime at the current level rescale the
larger-scale operand one step, mod-switching the companion one step so the
operands stay level-matched as the spec's scale-preservation property
requires.  Any other scale difference fails with `ScaleMismatch` (`none`). -/
def match_modulus_and_scale_inplace (primeAt : Nat → ℕ) (a b : Ciphertext) :
    Option (Ciphertext × Ciphertext) :=
  let a1 := if b.chainIndex < a.chainIndex then modSwitchTo a b.chainIndex else a
  let b1 := if a.chainIndex < b.chainIndex then modSwitchTo b a.chainIndex else b
  if a1.scale = b1.scale then
    some (a1, b1)
  else if a1.scale = (primeAt a1.chainIndex : ℚ) * b1.scale then
    some (rescaleToNext primeAt a1, modSwitchToNext b1)
  else if b1.scale = (primeAt b1.chainIndex : ℚ) * a1.scale then
    some (modSwitchToNext a1, rescaleToNext primeAt b1)
  else
    none

/-- An HEPlaintext is an ordered sequence of (exact) reals. -/
abbrev HEPlaintext := List ℚ

/-- The payload of an HEType slot: either a plaintext vector or a ciphertext
handle (he_type.hpp's tagged union). -/
inductive HEValue where
  | plain (p : HEPlaintext)
  | cipher (c : Ciphertext)
  deriving DecidableEq, Repr

/-- A per-element slot: the tagged payload plus the complex-packing flag. -/
structure HEType where
  val : HEValue
  complexPacking : Bool
  deriving DecidableEq, Repr

instance : Inhabited HEType := ⟨⟨HEValue.plain [], false⟩⟩

/-- Whether the slot holds a plaintext. -/
def HEType.is_plaintext (t : HEType) : Bool :=
  match t.val with
  | HEValue.plain _ => true
  | HEValue.cipher _ => false

/-- Whether the slot holds a ciphertext. -/
def HEType.is_ciphertext (t : HEType) : Bool :=
  match t.val with
  | HEValue.plain _ => false
  | HEValue.cipher _ => true

/-- The chain indices of the ciphertext slots, in order. -/
def cipherChainIndices (slots : List HEType) : List Nat :=
  slots.filterMap (fun s =>
    match s.val with
    | HEValue.cipher c => some c.chainIndex
    | HEValue.plain _ => none)

/-- Modelled from the spec (section 4.2): the scan of
`match_to_smallest_chain_index` that finds the minimum chain index over the
ciphertext slots, starting from `SIZE_MAX`. -/
def smallestChainIndex (slots : List HEType) : Nat :=
  slots.foldl
    (fun acc s =>
      match s.val with
      | HEValue.cipher c => min acc c.chainIndex
      | HEValue.plain _ => acc)
    SIZE_MAX

/-- Modelled from the spec (section 4.2): `match_to_smallest_chain_index`.
The implementation (seal_util.cpp) is not among the sources; only its test
(part_000, lines 320-338) and its callers are.  Scans all ciphertext slots for
the minimum chain index, mod-switches every cipher down to it, leaves
plaintext slots untouched, and returns the minimum (`SIZE_MAX` when there are
no ciphertexts). -/
def match_to_smallest_chain_index (slots : List HEType) : List HEType × Nat :=
  let smallest := smallestChainIndex slots
  (slots.map (fun s =>
      match s.val with
      | HEValue.cipher c => { s with val := HEValue.cipher (modSwitchTo c smallest) }
      | HEValue.plain _ => s),
   smallest)

/-- The operator identifiers of the executor's dispatch switch, translated
from the `OP_TYPEID` cases of `HESealExecutable::generate_calls`
(he_seal_executable.cpp, lines 936-1421). -/
inductive OP_TYPEID where
  | Add | AvgPool | BatchNormInference | BoundedRelu | Broadcast | Concat
  | Constant | Convolution | Divide | Dot | Exp | Max | MaxPool | Minimum
  | Multiply | Negative | Pad | Parameter | Power | Relu | Reshape | Result
  | Reverse | Slice | Softmax | Subtract | Sum
  | Abs | Acos | All | AllReduce | And | Any | ArgMax | ArgMin | Asin | Atan
  | Atan2 | AvgPoolBackprop | BatchMatMul | BatchMatMulTranspose
  | BatchNormTraining | BatchNormTrainingBackprop | BroadcastDistributed
  | BroadcastLike | Ceiling | Clamp | Convert | ConvolutionBackpropData
  | ConvolutionBackpropFilters | ConvolutionBias | ConvolutionBiasAdd
  | ConvolutionBiasBackpropFiltersBias | Cos | Cosh | CrossEntropy
  | CrossEntropyBackprop | CropAndResize | CumSum | DepthToSpace | Dequantize
  | DynBroadcast | DynPad | DynReshape | DynSlice | DynReplaceSlice | Elu
  | EmbeddingLookup | Equal | Erf | FakeQuantize | Floor | Gather | GatherND
  | GenerateMask | GetOutputElement | Gelu | Gemm | GroupConvolution
  | GroupConvolutionBackpropData | GroupConvolutionBackpropFilters
  | GroupConvolutionTranspose | GeluBackpropFactor | Greater | GreaterEq
  | GRN | GRUCell | HardSigmoid | Interpolate | LayerNorm | LayerNormBackprop
  | Less | LessEq | Log | LRN | LSTMCell | LSTMSequence | Maximum | MatMul
  | MaxPoolBackprop | MVN | Min | NormalizeL2 | Not | NotEqual | OneHot | Or
  | Passthrough | PRelu | PartialSlice | PartialSliceBackprop | Product
  | Quantize | QuantizedConvolutionBias | QuantizedConvolutionBiasAdd
  | QuantizedConvolutionBiasSignedAdd | QuantizedConvolutionRelu
  | QuantizedConvolution | QuantizedDot | QuantizedDotBias | Recv | Range
  | RandomUniform | ReluBackprop | ReplaceSlice | ReverseSequence | Round
  | RNNCell | ScalarConstantLike | ScaleShift | ScatterAdd | ScatterND
  | ScatterNDAdd | ShapeOf | Send | Select | Selu | ShuffleChannels | Sigmoid
  | SigmoidBackprop | Sign | Sin | Sinh | SoftmaxCrossEntropy
  | SoftmaxCrossEntropyBackprop | SpaceToDepth | Split | SquaredDifference
  | Squeeze | Sqrt | Stack | StopGradient | Tan | Tanh | TensorIterator
  | Tile | TopK | Unsqueeze | Xor | UnknownOp
  deriving DecidableEq, Repr

/-- Errors raised by the modelled executor. -/
inductive HeError where
  | unsupportedOp
  | outputSizeNotOne
  | noClientParameters
  | emptyMaxPoolBatch
  | badResultCount
  deriving DecidableEq, Repr

/-- An observable action of one `generate_calls` dispatch: a kernel invocation
(recording the value of the backend's `lazy_mod` flag at the moment the kernel
runs), a `mod_reduce_seal` pass over the output slots, or a `rescale_seal`
pass over the output slots. -/
inductive ExecEv where
  | kernel (op : OP_TYPEID) (lazyMod : Bool)
  | modReduceAll
  | rescaleAll
  deriving DecidableEq, Repr

/-- Translated from `HESealExecutable::generate_calls`
(he_seal_executable.cpp, lines 923-1421).  Dispatch of a single node: returns
the sequence of observable actions together with the value of the backend's
`lazy_mod` flag after the dispatch, or an unsupported-op error.  For `Add` and
`Multiply` the code clears `lazy_mod` around the kernel when it is set ("Avoid
lazy mod for single add op") and sets it back to `true` afterwards.  For
`AvgPool`, `Convolution` and `Dot` the kernel is followed by
`mod_reduce_seal` when `lazy_mod` is set and then by `rescale_seal`;
`Multiply` is followed by `rescale_seal` alone.  The client-aided branches of
`Relu`, `BoundedRelu` and `MaxPool` are modelled separately by
`handle_server_relu_op` and `handle_server_max_pool_op` below. -/
def generate_calls (op : OP_TYPEID) (lazy : Bool) :
    Except HeError (List ExecEv × Bool) :=
  match op with
  | OP_TYPEID.Add =>
    if lazy then
      Except.ok ([ExecEv.kernel OP_TYPEID.Add false], true)
    else
      Except.ok ([ExecEv.kernel OP_TYPEID.Add lazy], lazy)
  | OP_TYPEID.AvgPool =>
    Except.ok ([ExecEv.kernel OP_TYPEID.AvgPool lazy]
      ++ (if lazy then [ExecEv.modReduceAll] else []) ++ [ExecEv.rescaleAll],
      lazy)
  | OP_TYPEID.BatchNormInference =>
    Except.ok ([ExecEv.kernel OP_TYPEID.BatchNormInference lazy], lazy)
  | OP_TYPEID.BoundedRelu =>
    Except.ok ([ExecEv.kernel OP_TYPEID.BoundedRelu lazy], lazy)
  | OP_TYPEID.Broadcast =>
    Except.ok ([ExecEv.kernel OP_TYPEID.Broadcast lazy], lazy)
  | OP_TYPEID.Concat =>
    Except.ok ([ExecEv.kernel OP_TYPEID.Concat lazy], lazy)
  | OP_TYPEID.Constant =>
    Except.ok ([ExecEv.kernel OP_TYPEID.Constant lazy], lazy)
  | OP_TYPEID.Convolution =>
    Except.ok ([ExecEv.kernel OP_TYPEID.Convolution lazy]
      ++ (if lazy then [ExecEv.modReduceAll] else []) ++ [ExecEv.rescaleAll],
      lazy)
  | OP_TYPEID.Divide =>
    Except.ok ([ExecEv.kernel OP_TYPEID.Divide lazy], lazy)
  | OP_TYPEID.Dot =>
    Except.ok ([ExecEv.kernel OP_TYPEID.Dot lazy]
      ++ (if lazy then [ExecEv.modReduceAll] else []) ++ [ExecEv.rescaleAll],
      lazy)
  | OP_TYPEID.Exp =>
    Except.ok ([ExecEv.kernel OP_TYPEID.Exp lazy], lazy)
  | OP_TYPEID.Max =>
    Except.ok ([ExecEv.kernel OP_TYPEID.Max lazy], lazy)
  | OP_TYPEID.MaxPool =>
    Except.ok ([ExecEv.kernel OP_TYPEID.MaxPool lazy], lazy)
  | OP_TYPEID.Minimum =>
    Except.ok ([ExecEv.kernel OP_TYPEID.Minimum lazy], lazy)
  | OP_TYPEID.Multiply =>
    if lazy then
      Except.ok ([ExecEv.kernel OP_TYPEID.Multiply false, ExecEv.rescaleAll],
        true)
    else
      Except.ok ([ExecEv.kernel OP_TYPEID.Multiply lazy, ExecEv.rescaleAll],
        lazy)
  | OP_TYPEID.Negative =>
    Except.ok ([ExecEv.kernel OP_TYPEID.Negative lazy], lazy)
  | OP_TYPEID.Pad =>
    Except.ok ([ExecEv.kernel OP_TYPEID.Pad lazy], lazy)
  | OP_TYPEID.Parameter =>
    Except.ok ([], lazy)
  | OP_TYPEID.Power =>
    Except.ok ([ExecEv.kernel OP_TYPEID.Power lazy], lazy)
  | OP_TYPEID.Relu =>
    Except.ok ([ExecEv.kernel OP_TYPEID.Relu lazy], lazy)
  | OP_TYPEID.Reshape =>
    Except.ok ([ExecEv.kernel OP_TYPEID.Reshape lazy], lazy)
  | OP_TYPEID.Result =>
    Except.ok ([ExecEv.kernel OP_TYPEID.Result lazy], lazy)
  | OP_TYPEID.Reverse =>
    Except.ok ([ExecEv.kernel OP_TYPEID.Reverse lazy], lazy)
  | OP_TYPEID.Slice =>
    Except.ok ([ExecEv.kernel OP_TYPEID.Slice lazy], lazy)
  | OP_TYPEID.Softmax =>
    Except.ok ([ExecEv.kernel OP_TYPEID.Softmax lazy], lazy)
  | OP_TYPEID.Subtract =>
    Except.ok ([ExecEv.kernel OP_TYPEID.Subtract lazy], lazy)
  | OP_TYPEID.Sum =>
    Except.ok ([ExecEv.kernel OP_TYPEID.Sum lazy], lazy)
  | _ => Except.error HeError.unsupportedOp

/-- A modulus-management operation recorded on a single output slot. -/
inductive SlotOp where
  | modReduce
  | rescale
  deriving DecidableEq, Repr

/-- Modelled from the spec: `rescale_seal` (kernel/rescale_seal.hpp, not among
the sources) applies `rescale` to every slot of the output.  A slot is
represented by the list of modulus-management operations applied to it so
far. -/
def rescale_seal (slots : List (List SlotOp)) : List (List SlotOp) :=
  slots.map (fun l => l ++ [SlotOp.rescale])

/-- Modelled from the spec: `mod_reduce_seal` (kernel/mod_reduce_seal.hpp, not
among the sources) applies `mod_reduce` to every slot of the output. -/
def mod_reduce_seal (slots : List (List SlotOp)) : List (List SlotOp) :=
  slots.map (fun l => l ++ [SlotOp.modReduce])

/-- Interprets the slot-level effect of a dispatch's action sequence on the
output slots (the kernel's own writes are the starting point). -/
def runPost (evs : List ExecEv) (slots : List (List SlotOp)) :
    List (List SlotOp) :=
  evs.foldl
    (fun s e =>
      match e with
      | ExecEv.kernel _ _ => s
      | ExecEv.modReduceAll => mod_reduce_seal s
      | ExecEv.rescaleAll => rescale_seal s)
    slots

/-- The supported operator set of spec section 6. -/
def supported_ops : List OP_TYPEID :=
  [OP_TYPEID.Add, OP_TYPEID.AvgPool, OP_TYPEID.BatchNormInference,
   OP_TYPEID.BoundedRelu, OP_TYPEID.Broadcast, OP_TYPEID.Concat,
   OP_TYPEID.Constant, OP_TYPEID.Convolution, OP_TYPEID.Divide, OP_TYPEID.Dot,
   OP_TYPEID.Exp, OP_TYPEID.Max, OP_TYPEID.MaxPool, OP_TYPEID.Minimum,
   OP_TYPEID.Multiply, OP_TYPEID.Negative, OP_TYPEID.Pad, OP_TYPEID.Parameter,
   OP_TYPEID.Power, OP_TYPEID.Relu, OP_TYPEID.Reshape, OP_TYPEID.Result,
   OP_TYPEID.Reverse, OP_TYPEID.Slice, OP_TYPEID.Softmax, OP_TYPEID.Subtract,
   OP_TYPEID.Sum]

/-- Modelled from the spec (section 6): the compilation-time support
predicate behind the `pass::SupportedOps` registration
(he_seal_executable.cpp, lines 150-156); the body of
`HESealBackend::is_supported` is not among the sources.  An operator id is
supported iff it belongs to the supported operator set. -/
def is_supported (op : OP_TYPEID) : Bool :=
  decide (op ∈ supported_ops)

/-- Modelled from the spec: the `pass::SupportedOps` compilation check accepts
a graph iff every node's operator id is supported. -/
def compile_check (nodes : List OP_TYPEID) : Bool :=
  nodes.all is_supported

/-- Modelled from the spec: `scalar_relu_seal` on a plaintext computes
elementwise `max(x, 0)` (kernel/relu_seal.hpp is not among the sources). -/
def scalar_relu_seal (p : HEPlaintext) : HEPlaintext :=
  p.map (fun x => max x 0)

/-- Modelled from the spec: `scalar_bounded_relu_seal` on a plaintext computes
elementwise `min(max(x, 0), alpha)` (kernel/bounded_relu_seal.hpp is not among
the sources). -/
def scalar_bounded_relu_seal (p : HEPlaintext) (alpha : ℚ) : HEPlaintext :=
  p.map (fun x => min (max x 0) alpha)

/-- The scalar plaintext routine selected by the node's type id
(he_seal_executable.cpp, lines 1527-1535). -/
def reluScalarResult (isBounded : Bool) (alpha : ℚ) (p : HEPlaintext) :
    HEPlaintext :=
  if isBounded then scalar_bounded_relu_seal p alpha else scalar_relu_seal p

/-- An observable protocol action of a client-aided nonlinear op: sending a
request carrying the given number of slots, or blocking on the op's condition
variable until a response has been received and processed. -/
inductive ProtoEv where
  | send (numSlots : Nat)
  | wait
  deriving DecidableEq, Repr

/-- Translated from the "Process known values" loop of
`HESealExecutable::handle_server_relu_op` (he_seal_executable.cpp, lines
1522-1539), at starting index `i`: plaintext slots get the scalar routine
applied locally into `m_relu_data`; ciphertext slots get the empty placeholder
and their index appended to `m_unknown_relu_idx`. -/
def reluKnownPassAux (isBounded : Bool) (alpha : ℚ) :
    Nat → List HEType → List HEType × List Nat
  | _, [] => ([], [])
  | i, s :: rest =>
    let r := reluKnownPassAux isBounded alpha (i + 1) rest
    match s.val with
    | HEValue.plain p =>
      (⟨HEValue.plain (reluScalarResult isBounded alpha p), false⟩ :: r.1, r.2)
    | HEValue.cipher _ =>
      (⟨HEValue.plain [], false⟩ :: r.1, i :: r.2)

/-- The maximum number of ciphertext slots per relu request
(`max_relu_message_cnt`, he_seal_executable.cpp line 1517). -/
def max_relu_message_cnt : Nat := 1000

/-- Translated from the "Process unknown values" loop of
`HESealExecutable::handle_server_relu_op` (he_seal_executable.cpp, lines
1593-1609): ciphertext slots at the unknown indices are accumulated into a
batch, which is flushed (a request is sent) when it reaches
`max_relu_message_cnt` slots, with a final flush of any non-empty remainder.
Returns the flushed batches and the send events in order. -/
def reluBatchAux (slots : List HEType) :
    List Nat → List HEType → List (List HEType) × List ProtoEv
  | [], cur =>
    if cur.isEmpty then ([], [])
    else ([cur], [ProtoEv.send cur.length])
  | i :: rest, cur =>
    let cur2 := cur ++ [slots.getD i default]
    if cur2.length = max_relu_message_cnt then
      let r := reluBatchAux slots rest []
      (cur2 :: r.1, ProtoEv.send cur2.length :: r.2)
    else
      reluBatchAux slots rest cur2

/-- The outcome of one client-aided Relu / BoundedRelu dispatch. -/
structure ReluOffloadResult where
  reluData : List HEType
  unknownIdx : List Nat
  batches : List (List HEType)
  trace : List ProtoEv
  deriving DecidableEq, Repr

/-- Translated from `HESealExecutable::handle_server_relu_op`
(he_seal_executable.cpp, lines 1494-1618): match the argument's ciphertext
slots to the smallest chain index, compute plaintext slots locally, collect
the ciphertext slots into batches of up to `max_relu_message_cnt`, send one
request per batch, and block once on the relu condition variable until
`m_relu_done_count == m_unknown_relu_idx.size()`. -/
def handle_server_relu_op (isBounded : Bool) (alpha : ℚ)
    (arg : List HEType) : ReluOffloadResult :=
  let slots := (match_to_smallest_chain_index arg).1
  let known := reluKnownPassAux isBounded alpha 0 slots
  let batched := reluBatchAux slots known.2 []
  { reluData := known.1
    unknownIdx := known.2
    batches := batched.1
    trace := batched.2 ++ [ProtoEv.wait] }

/-- Whether at most one request is outstanding at any time in a protocol
trace: after a send, no further send may occur until a wait (response
received and processed) has happened. -/
def oneOutstandingAux : Bool → List ProtoEv → Bool
  | _, [] => true
  | pending, ProtoEv.send _ :: rest => !pending && oneOutstandingAux true rest
  | _, ProtoEv.wait :: rest => oneOutstandingAux false rest

/-- Whether a protocol trace keeps at most one request outstanding. -/
def oneOutstanding (trace : List ProtoEv) : Bool :=
  oneOutstandingAux false trace

/-- Translated from `HESealExecutable::handle_max_pool_result`
(he_seal_executable.cpp, lines 452-475): a response message must carry exactly
one tensor, that tensor must carry exactly one ciphertext datum
("Maxpool only supports result_count 1"), and the datum is appended to
`m_max_pool_data`. -/
def handle_max_pool_result (maxPoolData : List HEType)
    (msg : List (List HEType)) : Except HeError (List HEType) :=
  match msg with
  | [t] =>
    match t with
    | [c] => Except.ok (maxPoolData ++ [c])
    | _ => Except.error HeError.badResultCount
  | _ => Except.error HeError.badResultCount

/-- The accumulated state of one client-aided MaxPool dispatch: the requests
sent so far, the output ciphertexts collected so far
(`m_max_pool_data`), and the protocol trace. -/
structure MaxPoolState where
  requests : List (List HEType)
  output : List HEType
  trace : List ProtoEv
  deriving DecidableEq, Repr

/-- Translated from the per-cell loop of
`HESealExecutable::handle_server_max_pool_op` (he_seal_executable.cpp, lines
1445-1490): for each output cell's maximize list, gather the ciphertexts at
its input indices (erroring on an empty batch, `NGRAPH_CHECK`), send them as
one request, and wait on the max-pool condition variable until the response
has been processed by `handle_max_pool_result`.  The client is modelled as a
function from the request's slots to the response message. -/
def maxPoolLoop (arg : List HEType)
    (client : List HEType → List (List HEType)) :
    List (List Nat) → MaxPoolState → Except HeError MaxPoolState
  | [], st => Except.ok st
  | l :: rest, st =>
    let batch := l.map (fun i => arg.getD i default)
    if batch.isEmpty then Except.error HeError.emptyMaxPoolBatch
    else
      match handle_max_pool_result st.output (client batch) with
      | Except.error e => Except.error e
      | Except.ok newOut =>
        maxPoolLoop arg client rest
          { requests := st.requests ++ [batch]
            output := newOut
            trace := st.trace ++ [ProtoEv.send batch.length, ProtoEv.wait] }

/-- Translated from `HESealExecutable::handle_server_max_pool_op`
(he_seal_executable.cpp, lines 1424-1492): clear `m_max_pool_data`, run the
per-cell request/wait loop over the maximize lists, and write the collected
data to the output tensor. -/
def handle_server_max_pool_op (arg : List HEType)
    (maximizeLists : List (List Nat))
    (client : List HEType → List (List HEType)) : Except HeError MaxPoolState :=
  maxPoolLoop arg client maximizeLists { requests := [], output := [], trace := [] }

/-- Modelled from the spec: a SEAL ciphertext as observed by the save/load
test (part_000, lines 44-111), with its metadata fields and its coefficient
array (`dyn_array`). -/
structure SealCiphertext where
  parmsId : Nat
  scale : ℚ
  size : Nat
  isNttForm : Bool
  polyModulusDegree : Nat
  coeffModulusSize : Nat
  data : List Nat
  deriving DecidableEq, Repr

/-- Modelled from the spec: `save` serializes a ciphertext's metadata followed
by its coefficient array (seal_util.cpp is not among the sources; only the
round-trip test is). -/
def save (c : SealCiphertext) : List Int :=
  [Int.ofNat c.parmsId, c.scale.num, Int.ofNat c.scale.den, Int.ofNat c.size,
   if c.isNttForm then 1 else 0, Int.ofNat c.polyModulusDegree,
   Int.ofNat c.coeffModulusSize, Int.ofNat c.data.length]
  ++ c.data.map Int.ofNat

/-- Modelled from the spec: `load` parses the serialized metadata and
coefficient array back into a ciphertext, failing on a length mismatch. -/
def load (bs : List Int) : Option SealCiphertext :=
  match bs with
  | pid :: num :: den :: sz :: ntt :: deg :: cms :: len :: rest =>
    if rest.length = len.toNat then
      some { parmsId := pid.toNat
             scale := (num : ℚ) / (den : ℚ)
             size := sz.toNat
             isNttForm := ntt == 1
             polyModulusDegree := deg.toNat
             coeffModulusSize := cms.toNat
             data := rest.map Int.toNat }
    else none
  | _ => none

/-- Translated from `HESealExecutable::check_client_supports_function`
(he_seal_executable.cpp, lines 239-252): count the parameters annotated
`from_client`; require exactly one result and more than zero client
parameters. -/
def check_client_supports_function (numResults : Nat)
    (fromClient : List Bool) : Except HeError Unit :=
  let fromClientCount := fromClient.count true
  if numResults = 1 then
    if 0 < fromClientCount then Except.ok ()
    else Except.error HeError.noClientParameters
  else Except.error HeError.outputSizeNotOne

/-- Translated from the output-count check of
`HESealExecutable::send_client_results` (he_seal_executable.cpp, lines
898-902): sending results to the client requires exactly one client output
tensor. -/
def send_client_results (clientOutputs : List (List HEType)) :
    Except HeError (List (List HEType)) :=
  if clientOutputs.length = 1 then Except.ok clientOutputs
  else Except.error HeError.outputSizeNotOne

/-! ## Theorems -/

/-- C7: when the backend's `lazy_mod` flag is set, the executor dispatches a
single `Add` or `Multiply` node with the flag cleared for the kernel and the
flag holds `true` again afterwards; when the flag is not set the kernel sees
it unchanged (`false`); in both cases the flag after the dispatch equals its
value before. -/
theorem claim_c7_lazy_mod_around_single_ops (lazy : Bool) :
    generate_calls OP_TYPEID.Add lazy =
      Except.ok ([ExecEv.kernel OP_TYPEID.Add false], lazy) ∧
    generate_calls OP_TYPEID.Multiply lazy =
      Except.ok ([ExecEv.kernel OP_TYPEID.Multiply false, ExecEv.rescaleAll],
        lazy) := by
  cases lazy <;> exact ⟨rfl, rfl⟩

/-- C3: for the multiplicative nodes `Dot`, `Convolution` and `AvgPool` the
executor applies `rescale` to every output slot after the kernel completes,
preceded by `mod_reduce` on every output slot when `lazy_mod` is set; for
`Multiply` it applies `rescale` to every output slot after the kernel. -/
theorem claim_c3_multiplicative_rescale (lazy : Bool)
    (slots : List (List SlotOp)) :
    (∃ evs, generate_calls OP_TYPEID.Dot lazy = Except.ok (evs, lazy) ∧
      runPost evs slots = slots.map (fun l =>
        l ++ (if lazy then [SlotOp.modReduce, SlotOp.rescale]
              else [SlotOp.rescale]))) ∧
    (∃ evs, generate_calls OP_TYPEID.Convolution lazy = Except.ok (evs, lazy) ∧
      runPost evs slots = slots.map (fun l =>
        l ++ (if lazy then [SlotOp.modReduce, SlotOp.rescale]
              else [SlotOp.rescale]))) ∧
    (∃ evs, generate_calls OP_TYPEID.AvgPool lazy = Except.ok (evs, lazy) ∧
      runPost evs slots = slots.map (fun l =>
        l ++ (if lazy then [SlotOp.modReduce, SlotOp.rescale]
              else [SlotOp.rescale]))) ∧
    (∃ evs, generate_calls OP_TYPEID.Multiply lazy = Except.ok (evs, lazy) ∧
      runPost evs slots = slots.map (fun l => l ++ [SlotOp.rescale])) := by
  cases lazy <;>
    refine ⟨⟨_, rfl, ?_⟩, ⟨_, rfl, ?_⟩, ⟨_, rfl, ?_⟩, ⟨_, rfl, ?_⟩⟩ <;>
    simp [runPost, mod_reduce_seal, rescale_seal, List.map_map, Function.comp]

/-- Helper: a list's `all` is false at any member where the predicate is
false. -/
theorem all_eq_false_of_mem {α : Type} {p : α → Bool} {l : List α} {x : α}
    (hx : x ∈ l) (hp : p x = false) : l.all p = false := by
  cases hall : l.all p with
  | false => rfl
  | true => exact absurd (List.all_eq_true.mp hall x hx) (by simp [hp])

/-- C8: every operator id outside the supported operator set is rejected by
the compilation check, and kernel dispatch on such a node raises the
unsupported-op error rather than producing any actions. -/
theorem claim_c8_unsupported_op (op : OP_TYPEID) (h : op ∉ supported_ops) :
    is_supported op = false ∧
    (∀ nodes : List OP_TYPEID, op ∈ nodes → compile_check nodes = false) ∧
    (∀ lazy : Bool,
      generate_calls op lazy = Except.error HeError.unsupportedOp) := by
  have hsup : is_supported op = false := by
    simp only [is_supported]
    exact decide_eq_false h
  refine ⟨hsup, fun nodes hmem => all_eq_false_of_mem hmem hsup, fun lazy => ?_⟩
  cases op <;> first
    | rfl
    | exact absurd (by decide) h

/-- Witness for C8 at the concrete unsupported operator `Gelu`. -/
theorem claim_c8_unsupported_op_witness :
    OP_TYPEID.Gelu ∉ supported_ops ∧
    (is_supported OP_TYPEID.Gelu = false ∧
     compile_check [OP_TYPEID.Add, OP_TYPEID.Gelu] = false ∧
     generate_calls OP_TYPEID.Gelu true = Except.error HeError.unsupportedOp) :=
  ⟨by decide,
   (claim_c8_unsupported_op OP_TYPEID.Gelu (by decide)).1,
   (claim_c8_unsupported_op OP_TYPEID.Gelu (by decide)).2.1
     [OP_TYPEID.Add, OP_TYPEID.Gelu] (by decide),
   (claim_c8_unsupported_op OP_TYPEID.Gelu (by decide)).2.2 true⟩

/-- Helper: `Int.toNat` undoes `Int.ofNat` on every element of a list. -/
theorem map_toNat_comp_ofNat (l : List ℕ) :
    l.map (Int.toNat ∘ Int.ofNat) = l := by
  induction l with
  | nil => rfl
  | cons a as ih => simpa using ih

/-- C9: loading a saved ciphertext yields a ciphertext whose `parms_id`,
`scale`, `size`, `is_ntt_form`, `poly_modulus_degree` and
`coeff_modulus_size` equal those of the original and whose coefficient array
equals the original's coefficient by coefficient — an exact round trip. -/
theorem claim_c9_save_load_roundtrip (c : SealCiphertext) :
    ∃ c2, load (save c) = some c2 ∧
      c2.parmsId = c.parmsId ∧ c2.scale = c.scale ∧ c2.size = c.size ∧
      c2.isNttForm = c.isNttForm ∧
      c2.polyModulusDegree = c.polyModulusDegree ∧
      c2.coeffModulusSize = c.coeffModulusSize ∧
      c2.data.length = c.data.length ∧
      (∀ i, c2.data.getD i 0 = c.data.getD i 0) := by
  have hload : load (save c) = some c := by
    obtain ⟨pid, sc, sz, ntt, deg, cms, dat⟩ := c
    cases ntt <;>
      simp [load, save, List.map_map, Function.comp, Option.some.injEq,
        SealCiphertext.mk.injEq] <;>
      · exact ⟨Rat.num_div_den sc, map_toNat_comp_ofNat dat⟩
  exact ⟨c, hload, rfl, rfl, rfl, rfl, rfl, rfl, rfl, fun _ => rfl⟩

/-- C10: in client mode the setup check succeeds exactly when the compiled
function has one result and at least one `from_client` parameter, and sending
results to the client succeeds exactly when there is one client output
tensor. -/
theorem claim_c10_client_mode_checks (numResults : Nat)
    (fromClient : List Bool) (outs : List (List HEType)) :
    ((check_client_supports_function numResults fromClient = Except.ok ()) ↔
      (numResults = 1 ∧ 0 < fromClient.count true)) ∧
    ((∃ r, send_client_results outs = Except.ok r) ↔ outs.length = 1) := by
  constructor
  · unfold check_client_supports_function
    split_ifs <;> simp_all
  · unfold send_client_results
    split_ifs <;> simp_all

/-- Helper: iterating `modSwitchToNext` subtracts from the chain index and
preserves scale and value. -/
theorem modSwitchToNext_iterate (n : Nat) (c : Ciphertext) :
    modSwitchToNext^[n] c =
      ⟨c.chainIndex - n, c.scale, c.value⟩ := by
  induction n generalizing c with
  | zero => simp
  | succ k ih =>
    rw [Function.iterate_succ_apply, ih]
    simp only [modSwitchToNext]
    congr 1
    omega

/-- Helper: `modSwitchTo` lands at the minimum of the current index and the
target, preserving scale and value. -/
theorem modSwitchTo_spec (c : Ciphertext) (t : Nat) :
    modSwitchTo c t = ⟨min c.chainIndex t, c.scale, c.value⟩ := by
  rw [modSwitchTo, modSwitchToNext_iterate]
  congr 1
  omega

/-- Helper: prior mod-switch / rescale operations preserve the decrypted
value. -/
theorem applyModOps_value (primeAt : Nat → ℕ) (ops : List ModOp)
    (c : Ciphertext) : (applyModOps primeAt ops c).value = c.value := by
  induction ops generalizing c with
  | nil => rfl
  | cons op ops ih =>
    cases op <;> simp [applyModOps, ih, modSwitchToNext, rescaleToNext]

/-- Helper: whenever `match_modulus_and_scale_inplace` succeeds, the results
sit at the same chain index, carry equal scales, and decrypt to the operands'
original values. -/
theorem match_modulus_and_scale_inplace_ok (primeAt : Nat → ℕ)
    (hp : ∀ i, 0 < primeAt i) (a b a2 b2 : Ciphertext)
    (h : match_modulus_and_scale_inplace primeAt a b = some (a2, b2)) :
    a2.chainIndex = b2.chainIndex ∧ a2.scale = b2.scale ∧
    a2.value = a.value ∧ b2.value = b.value := by
  unfold match_modulus_and_scale_inplace at h
  set a1 := if b.chainIndex < a.chainIndex then modSwitchTo a b.chainIndex
    else a with ha1
  set b1 := if a.chainIndex < b.chainIndex then modSwitchTo b a.chainIndex
    else b with hb1
  have hfacts : a1.chainIndex = b1.chainIndex ∧ a1.scale = a.scale ∧
      a1.value = a.value ∧ b1.scale = b.scale ∧ b1.value = b.value := by
    rw [ha1, hb1]
    rcases Nat.lt_trichotomy a.chainIndex b.chainIndex with hlt | heq | hgt
    · rw [if_neg (by omega), if_pos hlt, modSwitchTo_spec]
      refine ⟨?_, rfl, rfl, rfl, rfl⟩
      simp
      omega
    · rw [if_neg (by omega), if_neg (by omega)]
      exact ⟨heq, rfl, rfl, rfl, rfl⟩
    · rw [if_pos hgt, if_neg (by omega), modSwitchTo_spec]
      refine ⟨?_, rfl, rfl, rfl, rfl⟩
      simp
      omega
  obtain ⟨hci, hsa, hva, hsb, hvb⟩ := hfacts
  by_cases h1 : a1.scale = b1.scale
  · rw [if_pos h1] at h
    obtain ⟨rfl, rfl⟩ := Prod.mk.injEq _ _ _ _ ▸ Option.some.injEq _ _ ▸ h
    exact ⟨hci, h1, hva, hvb⟩
  · rw [if_neg h1] at h
    by_cases h2 : a1.scale = (primeAt a1.chainIndex : ℚ) * b1.scale
    · rw [if_pos h2] at h
      have hpz : ((primeAt a1.chainIndex : ℕ) : ℚ) ≠ 0 := by
        exact_mod_cast Nat.pos_iff_ne_zero.mp (hp a1.chainIndex)
      obtain ⟨rfl, rfl⟩ := Prod.mk.injEq _ _ _ _ ▸ Option.some.injEq _ _ ▸ h
      refine ⟨?_, ?_, hva, hvb⟩
      · simp [rescaleToNext, modSwitchToNext]
        omega
      · simp only [rescaleToNext, modSwitchToNext, h2]
        exact mul_div_cancel_left₀ b1.scale hpz
    · rw [if_neg h2] at h
      by_cases h3 : b1.scale = (primeAt b1.chainIndex : ℕ) * a1.scale
      · rw [if_pos h3] at h
        have hpz : ((primeAt b1.chainIndex : ℕ) : ℚ) ≠ 0 := by
          exact_mod_cast Nat.pos_iff_ne_zero.mp (hp b1.chainIndex)
        obtain ⟨rfl, rfl⟩ := Prod.mk.injEq _ _ _ _ ▸ Option.some.injEq _ _ ▸ h
        refine ⟨?_, ?_, hva, hvb⟩
        · simp [rescaleToNext, modSwitchToNext]
          omega
        · simp only [rescaleToNext, modSwitchToNext, h3]
          exact (mul_div_cancel_left₀ a1.scale hpz).symm
      · rw [if_neg h3] at h
        exact absurd h (by simp)

/-- C1: for operands produced by any combination of prior mod-switch and
rescale operations on fresh encryptions (in either argument order), whenever
`match_modulus_and_scale_inplace` completes without error the operands end at
equal chain indices, with equal scales — hence with log-scale difference zero,
below every positive epsilon — and both still decrypt to their original
plaintext values. -/
theorem claim_c1_match_modulus_and_scale (primeAt : Nat → ℕ)
    (hp : ∀ i, 0 < primeAt i) (L : Nat) (s0 : ℚ) (v1 v2 : ℚ)
    (ops1 ops2 : List ModOp) (a2 b2 : Ciphertext)
    (h : match_modulus_and_scale_inplace primeAt
        (applyModOps primeAt ops1 (encryptFresh L s0 v1))
        (applyModOps primeAt ops2 (encryptFresh L s0 v2)) = some (a2, b2)) :
    a2.chainIndex = b2.chainIndex ∧ a2.scale = b2.scale ∧
    (∀ ε : ℝ, 0 < ε →
      |Real.logb 2 (a2.scale : ℝ) - Real.logb 2 (b2.scale : ℝ)| < ε) ∧
    decrypt a2 = v1 ∧ decrypt b2 = v2 := by
  obtain ⟨hci, hsc, hva, hvb⟩ :=
    match_modulus_and_scale_inplace_ok primeAt hp _ _ _ _ h
  refine ⟨hci, hsc, ?_, ?_, ?_⟩
  · intro ε hε
    rw [hsc]
    simpa using hε
  · rw [decrypt, hva, applyModOps_value]
    rfl
  · rw [decrypt, hvb, applyModOps_value]
    rfl

/-- Witness for C1: one operand mod-switched once, matched against a fresh
operand (the reversed order of the same scenario is covered by the theorem's
quantifiers). -/
theorem claim_c1_match_modulus_and_scale_witness :
    ((∀ i : Nat, 0 < (fun _ => 2) i) ∧
     match_modulus_and_scale_inplace (fun _ => 2)
        (applyModOps (fun _ => 2) [ModOp.modSwitch] (encryptFresh 2 4 1))
        (applyModOps (fun _ => 2) [] (encryptFresh 2 4 2)) =
        some (⟨1, 4, 1⟩, ⟨1, 4, 2⟩)) ∧
    ((1 : Nat) = 1 ∧ (4 : ℚ) = 4 ∧
     (∀ ε : ℝ, 0 < ε →
       |Real.logb 2 ((4 : ℚ) : ℝ) - Real.logb 2 ((4 : ℚ) : ℝ)| < ε) ∧
     decrypt ⟨1, 4, 1⟩ = 1 ∧ decrypt ⟨1, 4, 2⟩ = 2) :=
  ⟨⟨fun _ => Nat.succ_pos 1, by decide⟩,
   claim_c1_match_modulus_and_scale (fun _ => 2) (fun _ => Nat.succ_pos 1)
     2 4 1 2 [ModOp.modSwitch] [] ⟨1, 4, 1⟩ ⟨1, 4, 2⟩ (by decide)⟩

/-- Helper: the scan of `smallestChainIndex` is the fold of `min` over the
cipher chain indices, for any starting accumulator. -/
theorem fold_min_over_ciphers (slots : List HEType) : ∀ init : Nat,
    slots.foldl
      (fun acc s =>
        match s.val with
        | HEValue.cipher c => min acc c.chainIndex
        | HEValue.plain _ => acc)
      init
    = (cipherChainIndices slots).foldl min init := by
  induction slots with
  | nil => intro init; rfl
  | cons s rest ih =>
    intro init
    obtain ⟨v, cp⟩ := s
    cases v with
    | plain p => simpa [cipherChainIndices] using ih init
    | cipher c =>
      simpa [cipherChainIndices] using ih (min init c.chainIndex)

/-- Helper: a fold of `min` never exceeds its starting accumulator. -/
theorem foldl_min_le_init : ∀ (l : List ℕ) (init : Nat),
    l.foldl min init ≤ init := by
  intro l
  induction l with
  | nil => intro init; exact Nat.le_refl init
  | cons a as ih =>
    intro init
    exact Nat.le_trans (ih (min init a)) (Nat.min_le_left init a)

/-- Helper: a fold of `min` never exceeds any list member. -/
theorem foldl_min_le_mem : ∀ (l : List ℕ) (init x : Nat), x ∈ l →
    l.foldl min init ≤ x := by
  intro l
  induction l with
  | nil => intro init x hx; cases hx
  | cons a as ih =>
    intro init x hx
    rcases List.mem_cons.mp hx with rfl | hx
    · exact Nat.le_trans (foldl_min_le_init as (min init x))
        (Nat.min_le_right init x)
    · exact ih (min init a) x hx

/-- Helper: a fold of `min` yields its starting accumulator or a list
member. -/
theorem foldl_min_mem_cons : ∀ (l : List ℕ) (init : Nat),
    l.foldl min init ∈ init :: l := by
  intro l
  induction l with
  | nil => intro init; exact List.mem_singleton.mpr rfl
  | cons a as ih =>
    intro init
    rcases List.mem_cons.mp (ih (min init a)) with heq | hmem
    · rcases min_choice init a with hc | hc
      · exact List.mem_cons.mpr (Or.inl (heq.trans hc))
      · exact List.mem_cons.mpr
          (Or.inr (List.mem_cons.mpr (Or.inl (heq.trans hc))))
    · exact List.mem_cons.mpr (Or.inr (List.mem_cons.mpr (Or.inr hmem)))

/-- Helper: `getD` commutes with `map` at in-range indices. -/
theorem getD_map_of_lt {α β : Type} (f : α → β) (d : β) (d0 : α) :
    ∀ (l : List α) (i : Nat), i < l.length →
      (l.map f).getD i d = f (l.getD i d0) := by
  intro l
  induction l with
  | nil => intro i h; simp at h
  | cons a as ih =>
    intro i h
    cases i with
    | zero => rfl
    | succ j => simpa using ih j (by simpa using h)

/-- Helper: when there are no cipher slots, the mod-switching map of
`match_to_smallest_chain_index` is the identity. -/
theorem switch_map_id_of_no_ciphers (t : Nat) :
    ∀ slots : List HEType, cipherChainIndices slots = [] →
    (slots.map (fun s =>
      match s.val with
      | HEValue.cipher c =>
        { s with val := HEValue.cipher (modSwitchTo c t) }
      | HEValue.plain _ => s)) = slots := by
  intro slots
  induction slots with
  | nil => intro _; rfl
  | cons s rest ih =>
    intro h
    cases hv : s.val with
    | plain p =>
      have hrest : cipherChainIndices rest = [] := by
        simpa [cipherChainIndices, hv] using h
      have hhd : (match s.val with
          | HEValue.cipher c =>
            { s with val := HEValue.cipher (modSwitchTo c t) }
          | HEValue.plain _ => s) = s := by
        rw [hv]
      simpa [hhd] using ih hrest
    | cipher c =>
      exfalso
      simp [cipherChainIndices, hv] at h

/-- Helper: the chain index of a cipher slot occurs among the cipher chain
indices. -/
theorem chainIndex_mem_cipherChainIndices (slots : List HEType) (i : Nat)
    (c : Ciphertext) (hi : i < slots.length)
    (hv : (slots.getD i default).val = HEValue.cipher c) :
    c.chainIndex ∈ cipherChainIndices slots := by
  have hmem : slots.getD i default ∈ slots := by
    rw [List.getD_eq_getElem slots default hi]
    exact List.getElem_mem hi
  exact List.mem_filterMap.mpr ⟨slots.getD i default, hmem, by rw [hv]⟩

/-- C2: `match_to_smallest_chain_index` preserves the slot count, returns
`SIZE_MAX` (leaving the vector untouched) when there are no ciphertext slots,
otherwise returns the minimum chain index among the ciphertext slots; it
leaves every plaintext slot unmodified and moves every ciphertext slot to the
returned minimum index (preserving its scale and decrypted value).  The bound
hypothesis reflects that chain indices are `size_t` values. -/
theorem claim_c2_match_to_smallest_chain_index (slots : List HEType)
    (hbound : ∀ m ∈ cipherChainIndices slots, m ≤ SIZE_MAX) :
    ((match_to_smallest_chain_index slots).1).length = slots.length ∧
    (cipherChainIndices slots = [] →
      (match_to_smallest_chain_index slots).2 = SIZE_MAX ∧
      (match_to_smallest_chain_index slots).1 = slots) ∧
    (cipherChainIndices slots ≠ [] →
      (match_to_smallest_chain_index slots).2 ∈ cipherChainIndices slots ∧
      ∀ m ∈ cipherChainIndices slots,
        (match_to_smallest_chain_index slots).2 ≤ m) ∧
    (∀ i, i < slots.length → (slots.getD i default).is_plaintext = true →
      ((match_to_smallest_chain_index slots).1).getD i default =
        slots.getD i default) ∧
    (∀ i c, i < slots.length →
      (slots.getD i default).val = HEValue.cipher c →
      ((match_to_smallest_chain_index slots).1).getD i default =
        ⟨HEValue.cipher
          ⟨(match_to_smallest_chain_index slots).2, c.scale, c.value⟩,
         (slots.getD i default).complexPacking⟩) := by
  have hsm : smallestChainIndex slots =
      (cipherChainIndices slots).foldl min SIZE_MAX :=
    fold_min_over_ciphers slots SIZE_MAX
  have hle : ∀ m ∈ cipherChainIndices slots,
      smallestChainIndex slots ≤ m := by
    intro m hm
    rw [hsm]
    exact foldl_min_le_mem _ SIZE_MAX m hm
  refine ⟨?_, ?_, ?_, ?_, ?_⟩
  · simp [match_to_smallest_chain_index]
  · intro hempty
    constructor
    · simp [match_to_smallest_chain_index, smallestChainIndex,
        fold_min_over_ciphers slots SIZE_MAX, hempty]
    · exact switch_map_id_of_no_ciphers _ slots hempty
  · intro hne
    refine ⟨?_, hle⟩
    have hmem := foldl_min_mem_cons (cipherChainIndices slots) SIZE_MAX
    rw [← hsm] at hmem
    rcases List.mem_cons.mp hmem with heq | hmem2
    · obtain ⟨x, hx⟩ := List.exists_mem_of_ne_nil _ hne
      have h1 : smallestChainIndex slots ≤ x := hle x hx
      have h2 : x ≤ SIZE_MAX := hbound x hx
      have h3 : x = smallestChainIndex slots := by omega
      simpa [match_to_smallest_chain_index, ← h3] using hx
    · simpa [match_to_smallest_chain_index] using hmem2
  · intro i hi hplain
    have := getD_map_of_lt (fun s =>
      match s.val with
      | HEValue.cipher c =>
        { s with val := HEValue.cipher (modSwitchTo c (smallestChainIndex slots)) }
      | HEValue.plain _ => s) default default slots i hi
    rw [match_to_smallest_chain_index]
    simp only at this ⊢
    rw [this]
    cases hv : (slots.getD i default).val with
    | plain p => rfl
    | cipher c => rw [HEType.is_plaintext, hv] at hplain; simp at hplain
  · intro i c hi hv
    have hmap := getD_map_of_lt (fun s =>
      match s.val with
      | HEValue.cipher c =>
        { s with val := HEValue.cipher (modSwitchTo c (smallestChainIndex slots)) }
      | HEValue.plain _ => s) default default slots i hi
    have hcle : smallestChainIndex slots ≤ c.chainIndex :=
      hle c.chainIndex (chainIndex_mem_cipherChainIndices slots i c hi hv)
    rw [match_to_smallest_chain_index]
    simp only at hmap ⊢
    rw [hmap, hv]
    simp [modSwitchTo_spec, min_eq_right hcle]

/-- Witness for C2 on a concrete mixed plaintext / ciphertext vector. -/
theorem claim_c2_match_to_smallest_chain_index_witness :
    (∀ m ∈ cipherChainIndices
        [⟨HEValue.plain [1, 2], false⟩,
         ⟨HEValue.cipher ⟨3, 4, 7⟩, false⟩,
         ⟨HEValue.cipher ⟨1, 4, 9⟩, false⟩], m ≤ SIZE_MAX) ∧
    ((match_to_smallest_chain_index
        [⟨HEValue.plain [1, 2], false⟩,
         ⟨HEValue.cipher ⟨3, 4, 7⟩, false⟩,
         ⟨HEValue.cipher ⟨1, 4, 9⟩, false⟩]).2 = 1 ∧
     (match_to_smallest_chain_index
        [⟨HEValue.plain [1, 2], false⟩,
         ⟨HEValue.cipher ⟨3, 4, 7⟩, false⟩,
         ⟨HEValue.cipher ⟨1, 4, 9⟩, false⟩]).1 =
       [⟨HEValue.plain [1, 2], false⟩,
        ⟨HEValue.cipher ⟨1, 4, 7⟩, false⟩,
        ⟨HEValue.cipher ⟨1, 4, 9⟩, false⟩]) := by
  constructor
  · decide
  · constructor
    · decide
    · have h := (claim_c2_match_to_smallest_chain_index
        [⟨HEValue.plain [1, 2], false⟩,
         ⟨HEValue.cipher ⟨3, 4, 7⟩, false⟩,
         ⟨HEValue.cipher ⟨1, 4, 9⟩, false⟩] (by decide)).2.2.2.2 1 ⟨3, 4, 7⟩
        (by decide) (by decide)
      decide

/-- The indices of the ciphertext slots, in order. -/
def cipherIndices (slots : List HEType) : List Nat :=
  ((slots.enum).filter (fun p => p.2.is_ciphertext)).map Prod.fst

/-- Helper: the data half of the known-values pass maps plaintext slots to
the scalar routine's result and ciphertext slots to the placeholder,
independently of the starting index. -/
theorem reluKnownPass_data (isB : Bool) (al : ℚ) :
    ∀ (slots : List HEType) (i : Nat),
    (reluKnownPassAux isB al i slots).1 = slots.map (fun s =>
      match s.val with
      | HEValue.plain p =>
        ⟨HEValue.plain (reluScalarResult isB al p), false⟩
      | HEValue.cipher _ => ⟨HEValue.plain [], false⟩) := by
  intro slots
  induction slots with
  | nil => intro i; rfl
  | cons s rest ih =>
    intro i
    obtain ⟨v, cp⟩ := s
    cases v <;> simp [reluKnownPassAux, ih]

/-- Helper: the index half of the known-values pass collects exactly the
positions of the ciphertext slots, counted from the starting index. -/
theorem reluKnownPass_idx (isB : Bool) (al : ℚ) :
    ∀ (slots : List HEType) (i : Nat),
    (reluKnownPassAux isB al i slots).2 =
      ((List.enumFrom i slots).filter
        (fun p => p.2.is_ciphertext)).map Prod.fst := by
  intro slots
  induction slots with
  | nil => intro i; rfl
  | cons s rest ih =>
    intro i
    obtain ⟨v, cp⟩ := s
    cases v <;>
      simp [reluKnownPassAux, ih, HEType.is_ciphertext]

/-- Helper: the mod-switching map of `match_to_smallest_chain_index` does not
change which positions hold ciphertexts. -/
theorem cipherIndices_switch_map (t : Nat) :
    ∀ (slots : List HEType) (i : Nat),
    ((List.enumFrom i (slots.map (fun s =>
        match s.val with
        | HEValue.cipher c =>
          { s with val := HEValue.cipher (modSwitchTo c t) }
        | HEValue.plain _ => s))).filter
      (fun p => p.2.is_ciphertext)).map Prod.fst =
    ((List.enumFrom i slots).filter
      (fun p => p.2.is_ciphertext)).map Prod.fst := by
  intro slots
  induction slots with
  | nil => intro i; rfl
  | cons s rest ih =>
    intro i
    obtain ⟨v, cp⟩ := s
    cases v <;>
      simp [HEType.is_ciphertext] <;>
      simpa [HEType.is_ciphertext] using ih (i + 1)

/-- Helper: concatenating the batches of the batching loop recovers the
accumulator followed by the slots at the unknown indices, in order. -/
theorem reluBatch_join (slots : List HEType) :
    ∀ (unknown : List Nat) (cur : List HEType),
    ((reluBatchAux slots unknown cur).1).flatten =
      cur ++ unknown.map (fun i => slots.getD i default) := by
  intro unknown
  induction unknown with
  | nil =>
    intro cur
    by_cases hc : cur.isEmpty
    · rw [List.isEmpty_iff] at hc
      simp [reluBatchAux, hc]
    · simp [reluBatchAux, hc]
  | cons i rest ih =>
    intro cur
    simp only [reluBatchAux]
    split
    · simp [ih]
    · rw [ih]
      simp

/-- Helper: every batch produced by the batching loop holds at most
`max_relu_message_cnt` slots, as long as the accumulator starts below the
limit. -/
theorem reluBatch_sizes (slots : List HEType) :
    ∀ (unknown : List Nat) (cur : List HEType),
    cur.length < max_relu_message_cnt →
    ∀ b ∈ (reluBatchAux slots unknown cur).1,
      b.length ≤ max_relu_message_cnt := by
  intro unknown
  induction unknown with
  | nil =>
    intro cur hcur b hb
    by_cases hc : cur.isEmpty
    · simp [reluBatchAux, hc] at hb
    · simp [reluBatchAux, hc] at hb
      subst hb
      omega
  | cons i rest ih =>
    intro cur hcur b hb
    simp only [reluBatchAux] at hb
    by_cases hlen :
        (cur ++ [slots.getD i default]).length = max_relu_message_cnt
    · rw [if_pos hlen] at hb
      rcases List.mem_cons.mp hb with rfl | hb2
      · omega
      · exact ih [] (by simp [max_relu_message_cnt]) b hb2
    · rw [if_neg hlen] at hb
      have hlt : (cur ++ [slots.getD i default]).length <
          max_relu_message_cnt := by
        simp at hlen ⊢
        omega
      exact ih _ hlt b hb

/-- Helper: the batching loop emits exactly one send event per flushed batch,
carrying the batch's slot count, in order. -/
theorem reluBatch_trace (slots : List HEType) :
    ∀ (unknown : List Nat) (cur : List HEType),
    (reluBatchAux slots unknown cur).2 =
      ((reluBatchAux slots unknown cur).1).map
        (fun b => ProtoEv.send b.length) := by
  intro unknown
  induction unknown with
  | nil =>
    intro cur
    by_cases hc : cur.isEmpty <;> simp [reluBatchAux, hc]
  | cons i rest ih =>
    intro cur
    simp only [reluBatchAux]
    split
    · simp [ih]
    · exact ih _

/-- C5: for a client-aided Relu / BoundedRelu over mixed slots, every
plaintext slot's result is the scalar plaintext routine applied locally,
the unknown indices are exactly the positions of the ciphertext slots, the
request batches concatenate to precisely the (chain-matched) ciphertext slots
shipped to the client, and every batch holds at most 1000 slots. -/
theorem claim_c5_relu_partition (isBounded : Bool) (alpha : ℚ)
    (arg : List HEType) :
    (handle_server_relu_op isBounded alpha arg).reluData.length =
      arg.length ∧
    (∀ i p cp, i < arg.length →
      arg.getD i default = ⟨HEValue.plain p, cp⟩ →
      (handle_server_relu_op isBounded alpha arg).reluData.getD i default =
        ⟨HEValue.plain (reluScalarResult isBounded alpha p), false⟩) ∧
    (handle_server_relu_op isBounded alpha arg).unknownIdx =
      cipherIndices arg ∧
    ((handle_server_relu_op isBounded alpha arg).batches).flatten =
      ((handle_server_relu_op isBounded alpha arg).unknownIdx).map
        (fun i =>
          ((match_to_smallest_chain_index arg).1).getD i default) ∧
    (∀ b ∈ (handle_server_relu_op isBounded alpha arg).batches,
      b.length ≤ max_relu_message_cnt) := by
  unfold handle_server_relu_op
  simp only [match_to_smallest_chain_index]
  refine ⟨?_, ?_, ?_, ?_, ?_⟩
  · rw [reluKnownPass_data]
    simp
  · intro i p cp hi harg
    rw [reluKnownPass_data]
    have h1 := getD_map_of_lt (fun s =>
      match s.val with
      | HEValue.cipher c =>
        { s with
          val := HEValue.cipher (modSwitchTo c (smallestChainIndex arg)) }
      | HEValue.plain _ => s) default default arg i hi
    have h2 := getD_map_of_lt (fun s =>
      match s.val with
      | HEValue.plain p =>
        (⟨HEValue.plain (reluScalarResult isBounded alpha p), false⟩ : HEType)
      | HEValue.cipher _ => ⟨HEValue.plain [], false⟩) default default
      (arg.map (fun s =>
        match s.val with
        | HEValue.cipher c =>
          { s with
            val := HEValue.cipher (modSwitchTo c (smallestChainIndex arg)) }
        | HEValue.plain _ => s)) i (by simpa using hi)
    rw [h2, h1, harg]
  · rw [reluKnownPass_idx]
    rw [cipherIndices_switch_map]
    rfl
  · rw [reluBatch_join]
    simp
  · intro b hb
    exact reluBatch_sizes _ _ []
      (by simp [max_relu_message_cnt]) b hb

/-- Witness for C5 on a concrete mixed vector of one plaintext and one
ciphertext slot. -/
theorem claim_c5_relu_partition_witness :
    ((0 : Nat) < 2 ∧
     [⟨HEValue.plain [-1, 2], false⟩,
      (⟨HEValue.cipher ⟨1, 4, 5⟩, false⟩ : HEType)].getD 0 default =
       ⟨HEValue.plain [-1, 2], false⟩) ∧
    (handle_server_relu_op false 0
        [⟨HEValue.plain [-1, 2], false⟩,
         ⟨HEValue.cipher ⟨1, 4, 5⟩, false⟩]).reluData.getD 0 default =
      ⟨HEValue.plain (reluScalarResult false 0 [-1, 2]), false⟩ ∧
    (handle_server_relu_op false 0
        [⟨HEValue.plain [-1, 2], false⟩,
         ⟨HEValue.cipher ⟨1, 4, 5⟩, false⟩]).unknownIdx =
      cipherIndices
        [⟨HEValue.plain [-1, 2], false⟩,
         ⟨HEValue.cipher ⟨1, 4, 5⟩, false⟩] :=
  ⟨⟨by decide, by decide⟩,
   (claim_c5_relu_partition false 0
      [⟨HEValue.plain [-1, 2], false⟩,
       ⟨HEValue.cipher ⟨1, 4, 5⟩, false⟩]).2.1 0 [-1, 2] false
     (by decide) (by decide),
   (claim_c5_relu_partition false 0
      [⟨HEValue.plain [-1, 2], false⟩,
       ⟨HEValue.cipher ⟨1, 4, 5⟩, false⟩]).2.2.1⟩

/-- Helper: inversion of a successful `handle_max_pool_result`: the response
carried exactly one tensor with exactly one ciphertext, which was appended. -/
theorem handle_max_pool_result_ok (data out : List HEType)
    (msg : List (List HEType))
    (h : handle_max_pool_result data msg = Except.ok out) :
    ∃ c, msg = [[c]] ∧ out = data ++ [c] := by
  rcases msg with _ | ⟨t, _ | ⟨t2, ms⟩⟩
  · simp [handle_max_pool_result] at h
  · rcases t with _ | ⟨c, _ | ⟨c2, cs⟩⟩
    · simp [handle_max_pool_result] at h
    · refine ⟨c, rfl, ?_⟩
      simp [handle_max_pool_result] at h
      exact h.symm
    · simp [handle_max_pool_result] at h
  · simp [handle_max_pool_result] at h

/-- Helper: a successful max-pool loop appends one `[send, wait]` block to
the trace per processed cell. -/
theorem maxPoolLoop_trace (arg : List HEType)
    (client : List HEType → List (List HEType)) :
    ∀ (lists : List (List Nat)) (st st' : MaxPoolState),
    maxPoolLoop arg client lists st = Except.ok st' →
    ∃ ns : List Nat, st'.trace = st.trace ++
      (ns.map (fun n => [ProtoEv.send n, ProtoEv.wait])).flatten := by
  intro lists
  induction lists with
  | nil =>
    intro st st' h
    refine ⟨[], ?_⟩
    simp [maxPoolLoop] at h
    rw [← h]
    simp
  | cons l rest ih =>
    intro st st' h
    simp only [maxPoolLoop] at h
    by_cases hemp : (l.map (fun i => arg.getD i default)).isEmpty
    · rw [if_pos hemp] at h
      exact absurd h (by simp)
    · rw [if_neg hemp] at h
      cases hr : handle_max_pool_result st.output
          (client (l.map (fun i => arg.getD i default))) with
      | error e =>
        rw [hr] at h
        exact absurd h (by simp)
      | ok newOut =>
        rw [hr] at h
        obtain ⟨ns, hns⟩ := ih _ _ h
        refine ⟨(l.map (fun i => arg.getD i default)).length :: ns, ?_⟩
        simp only at hns
        rw [hns]
        simp

/-- Helper: a trace made of consecutive `[send, wait]` blocks keeps at most
one request outstanding. -/
theorem oneOutstanding_pairs : ∀ ns : List Nat,
    oneOutstandingAux false
      ((ns.map (fun n => [ProtoEv.send n, ProtoEv.wait])).flatten) = true := by
  intro ns
  induction ns with
  | nil => rfl
  | cons n rest ih => simpa [oneOutstandingAux] using ih

/-- Helper: full characterisation of a successful max-pool loop: every
maximize list is non-empty, one request per cell carrying the slots at the
cell's indices, and one response ciphertext appended per cell in order. -/
theorem maxPoolLoop_spec (arg : List HEType)
    (client : List HEType → List (List HEType)) :
    ∀ (lists : List (List Nat)) (st st' : MaxPoolState),
    maxPoolLoop arg client lists st = Except.ok st' →
    (∀ l ∈ lists, l ≠ []) ∧
    st'.requests = st.requests ++
      lists.map (fun l => l.map (fun i => arg.getD i default)) ∧
    ∃ cs : List HEType, cs.length = lists.length ∧
      st'.output = st.output ++ cs ∧
      ∀ j, j < lists.length →
        client ((lists.getD j []).map (fun i => arg.getD i default)) =
          [[cs.getD j default]] := by
  intro lists
  induction lists with
  | nil =>
    intro st st' h
    simp [maxPoolLoop] at h
    refine ⟨by simp, by simp [← h], [], rfl, by simp [← h], ?_⟩
    intro j hj
    exact absurd hj (Nat.not_lt_zero j)
  | cons l rest ih =>
    intro st st' h
    simp only [maxPoolLoop] at h
    by_cases hemp : (l.map (fun i => arg.getD i default)).isEmpty
    · rw [if_pos hemp] at h
      exact absurd h (by simp)
    · rw [if_neg hemp] at h
      cases hr : handle_max_pool_result st.output
          (client (l.map (fun i => arg.getD i default))) with
      | error e =>
        rw [hr] at h
        exact absurd h (by simp)
      | ok newOut =>
        rw [hr] at h
        obtain ⟨c, hmsg, hout⟩ := handle_max_pool_result_ok _ _ _ hr
        obtain ⟨hne, hreq, cs, hlen, houts, hresp⟩ := ih _ _ h
        refine ⟨?_, ?_, c :: cs, by simp [hlen], ?_, ?_⟩
        · intro l2 hl2
          rcases List.mem_cons.mp hl2 with rfl | hl2
          · intro hl2e
            rw [hl2e] at hemp
            simp at hemp
          · exact hne l2 hl2
        · rw [hreq]
          simp
        · rw [houts]
          simp only at houts ⊢
          rw [hout]
          simp
        · intro j hj
          cases j with
          | zero => simpa using hmsg
          | succ k => simpa using hresp k (by simpa using hj)

/-- C6: for a successful client-aided MaxPool, the server sends exactly one
request per output cell carrying the ciphertexts at that cell's (never-empty)
maximize list, each response contributes exactly one ciphertext appended in
output-cell order — one returned ciphertext per output cell — and a response
tensor whose data count differs from 1 is rejected. -/
theorem claim_c6_maxpool_offload (arg : List HEType)
    (lists : List (List Nat)) (client : List HEType → List (List HEType))
    (st : MaxPoolState)
    (h : handle_server_max_pool_op arg lists client = Except.ok st) :
    st.requests = lists.map (fun l => l.map (fun i => arg.getD i default)) ∧
    (∀ l ∈ lists, l ≠ []) ∧
    st.output.length = lists.length ∧
    (∀ j, j < lists.length →
      client (st.requests.getD j []) = [[st.output.getD j default]]) ∧
    (∀ (data : List HEType) (t : List HEType), t.length ≠ 1 →
      ∃ e, handle_max_pool_result data [t] = Except.error e) := by
  obtain ⟨hne, hreq, cs, hlen, hout, hresp⟩ :=
    maxPoolLoop_spec arg client lists _ _ h
  simp only at hreq hout
  rw [List.nil_append] at hreq hout
  refine ⟨hreq, hne, ?_, ?_, ?_⟩
  · rw [hout, hlen]
  · intro j hj
    rw [hreq, hout]
    rw [getD_map_of_lt (fun l => l.map (fun i => arg.getD i default))
      [] [] lists j hj]
    exact hresp j hj
  · intro data t ht
    rcases t with _ | ⟨c, _ | ⟨c2, cs2⟩⟩
    · exact ⟨HeError.badResultCount, rfl⟩
    · simp at ht
    · exact ⟨HeError.badResultCount, rfl⟩

/-- Witness for C6 on a concrete two-cell max pool. -/
theorem claim_c6_maxpool_offload_witness :
    handle_server_max_pool_op
        [⟨HEValue.cipher ⟨1, 4, 5⟩, false⟩, ⟨HEValue.cipher ⟨1, 4, 7⟩, false⟩]
        [[0, 1], [1]]
        (fun b => [[b.getD 0 default]]) =
      Except.ok
        ⟨[[⟨HEValue.cipher ⟨1, 4, 5⟩, false⟩,
           ⟨HEValue.cipher ⟨1, 4, 7⟩, false⟩],
          [⟨HEValue.cipher ⟨1, 4, 7⟩, false⟩]],
         [⟨HEValue.cipher ⟨1, 4, 5⟩, false⟩,
          ⟨HEValue.cipher ⟨1, 4, 7⟩, false⟩],
         [ProtoEv.send 2, ProtoEv.wait, ProtoEv.send 1, ProtoEv.wait]⟩ ∧
    (∀ l ∈ ([[0, 1], [1]] : List (List Nat)), l ≠ []) := by
  constructor
  · rfl
  · exact (claim_c6_maxpool_offload
      [⟨HEValue.cipher ⟨1, 4, 5⟩, false⟩, ⟨HEValue.cipher ⟨1, 4, 7⟩, false⟩]
      [[0, 1], [1]] (fun b => [[b.getD 0 default]])
      ⟨[[⟨HEValue.cipher ⟨1, 4, 5⟩, false⟩,
         ⟨HEValue.cipher ⟨1, 4, 7⟩, false⟩],
        [⟨HEValue.cipher ⟨1, 4, 7⟩, false⟩]],
       [⟨HEValue.cipher ⟨1, 4, 5⟩, false⟩,
        ⟨HEValue.cipher ⟨1, 4, 7⟩, false⟩],
       [ProtoEv.send 2, ProtoEv.wait, ProtoEv.send 1, ProtoEv.wait]⟩
      (by rfl)).2.1

/-- Helper: a list of lists each of length at most `k` flattens to at most
`k` times the number of lists. -/
theorem flatten_length_le {α : Type} (k : Nat) : ∀ (bs : List (List α)),
    (∀ b ∈ bs, b.length ≤ k) → bs.flatten.length ≤ bs.length * k := by
  intro bs
  induction bs with
  | nil => intro _; simp
  | cons b rest ih =>
    intro hb
    simp only [List.flatten_cons, List.length_append, List.length_cons]
    have h1 : b.length ≤ k := hb b (by simp)
    have h2 := ih (fun b2 hb2 => hb b2 (by simp [hb2]))
    have h3 : (rest.length + 1) * k = rest.length * k + k := by ring
    omega

/-- Helper: when more than `max_relu_message_cnt` slots are unknown, the relu
offload produces at least two request batches. -/
theorem relu_batches_count_ge_two (isB : Bool) (al : ℚ) (arg : List HEType)
    (h : max_relu_message_cnt <
      (handle_server_relu_op isB al arg).unknownIdx.length) :
    2 ≤ (handle_server_relu_op isB al arg).batches.length := by
  unfold handle_server_relu_op at h ⊢
  simp only at h ⊢
  have hflat : ((reluBatchAux (match_to_smallest_chain_index arg).1
      (reluKnownPassAux isB al 0 (match_to_smallest_chain_index arg).1).2
      []).1).flatten.length =
      (reluKnownPassAux isB al 0
        (match_to_smallest_chain_index arg).1).2.length := by
    rw [reluBatch_join]
    simp
  have hsz := reluBatch_sizes (match_to_smallest_chain_index arg).1
    (reluKnownPassAux isB al 0 (match_to_smallest_chain_index arg).1).2 []
    (by simp [max_relu_message_cnt])
  have hle := flatten_length_le max_relu_message_cnt _ hsz
  rw [hflat] at hle
  by_contra hc
  push_neg at hc
  have h1 : (reluBatchAux (match_to_smallest_chain_index arg).1
      (reluKnownPassAux isB al 0 (match_to_smallest_chain_index arg).1).2
      []).1.length ≤ 1 := by omega
  have h2 := Nat.mul_le_mul_right max_relu_message_cnt h1
  rw [Nat.one_mul] at h2
  omega

/-- Helper: when the offload splits into two or more batches, the relu trace
sends a second request before any wait: the one-outstanding-request property
fails. -/
theorem relu_trace_pipelined (isB : Bool) (al : ℚ) (arg : List HEType)
    (h : 2 ≤ (handle_server_relu_op isB al arg).batches.length) :
    oneOutstanding (handle_server_relu_op isB al arg).trace = false := by
  have htr : (handle_server_relu_op isB al arg).trace =
      ((handle_server_relu_op isB al arg).batches).map
        (fun b => ProtoEv.send b.length) ++ [ProtoEv.wait] := by
    unfold handle_server_relu_op
    simp only
    rw [reluBatch_trace]
  rcases hb : (handle_server_relu_op isB al arg).batches with _ | ⟨b1, bs⟩
  · rw [hb] at h
    simp at h
  · rcases bs with _ | ⟨b2, rest⟩
    · rw [hb] at h
      simp at h
    · rw [htr, hb]
      simp [oneOutstanding, oneOutstandingAux]

/-- Helper: the filtered enumeration of a replicated ciphertext slot keeps
every position. -/
theorem filter_enumFrom_replicate_length {x : HEType}
    (hx : x.is_ciphertext = true) :
    ∀ (n i : Nat),
    (((List.enumFrom i (List.replicate n x)).filter
      (fun p => p.2.is_ciphertext)).map Prod.fst).length = n := by
  intro n
  induction n with
  | zero => intro i; rfl
  | succ m ih =>
    intro i
    simp only [List.replicate_succ, List.enumFrom_cons, List.filter_cons, hx,
      if_pos, List.map_cons, List.length_cons]
    rw [ih (i + 1)]

/-- Helper: every slot of an all-ciphertext replicated tensor is recorded as
unknown by the relu offload. -/
theorem relu_unknown_replicate (isB : Bool) (al : ℚ) (n : Nat)
    (c : Ciphertext) :
    (handle_server_relu_op isB al
      (List.replicate n ⟨HEValue.cipher c, false⟩)).unknownIdx.length = n := by
  unfold handle_server_relu_op
  simp only [match_to_smallest_chain_index]
  rw [reluKnownPass_idx, List.map_replicate]
  refine filter_enumFrom_replicate_length ?_ n 0
  rfl

/-- C4 counterexample: a client-aided Relu over 1001 ciphertext slots splits
into two batches, and its protocol trace does not keep at most one request
outstanding: the request for the second batch is sent before the response for
the first has been received and processed (the executor's single wait follows
all sends). -/
theorem claim_c4_relu_pipelines_counterexample :
    2 ≤ (handle_server_relu_op false 0
        (List.replicate 1001 ⟨HEValue.cipher ⟨2, 4, 1⟩, false⟩)).batches.length
      ∧
    oneOutstanding (handle_server_relu_op false 0
        (List.replicate 1001
          ⟨HEValue.cipher ⟨2, 4, 1⟩, false⟩)).trace = false := by
  have h2 : 2 ≤ (handle_server_relu_op false 0
      (List.replicate 1001
        ⟨HEValue.cipher ⟨2, 4, 1⟩, false⟩)).batches.length := by
    refine relu_batches_count_ge_two false 0 _ ?_
    rw [relu_unknown_replicate false 0 1001 ⟨2, 4, 1⟩]
    simp [max_relu_message_cnt]
  exact ⟨h2, relu_trace_pipelined false 0 _ h2⟩

/-- C4 amended: the one-outstanding-request discipline holds for client-aided
MaxPool — the executor waits for each cell's response before sending the next
request — but not for Relu / BoundedRelu: there the executor sends every
batch request up front and waits once for all responses, so with two or more
batches a second request is outstanding before the first response arrives. -/
theorem claim_c4_amended_one_outstanding :
    (∀ (arg : List HEType) (lists : List (List Nat))
       (client : List HEType → List (List HEType)) (st : MaxPoolState),
       handle_server_max_pool_op arg lists client = Except.ok st →
       oneOutstanding st.trace = true) ∧
    (∀ (isBounded : Bool) (alpha : ℚ) (arg : List HEType),
       2 ≤ (handle_server_relu_op isBounded alpha arg).batches.length →
       oneOutstanding (handle_server_relu_op isBounded alpha arg).trace =
         false) := by
  constructor
  · intro arg lists client st h
    obtain ⟨ns, hns⟩ := maxPoolLoop_trace arg client lists _ _ h
    rw [oneOutstanding, hns]
    simpa using oneOutstanding_pairs ns
  · exact relu_trace_pipelined

/-- Witness for the amended C4 on a one-cell MaxPool and the 1001-cipher
Relu. -/
theorem claim_c4_amended_one_outstanding_witness :
    (handle_server_max_pool_op [⟨HEValue.cipher ⟨1, 4, 5⟩, false⟩] [[0]]
        (fun _ => [[⟨HEValue.cipher ⟨0, 4, 5⟩, false⟩]]) =
      Except.ok
        ⟨[[⟨HEValue.cipher ⟨1, 4, 5⟩, false⟩]],
         [⟨HEValue.cipher ⟨0, 4, 5⟩, false⟩],
         [ProtoEv.send 1, ProtoEv.wait]⟩ ∧
     oneOutstanding [ProtoEv.send 1, ProtoEv.wait] = true) ∧
    (2 ≤ (handle_server_relu_op false 0
        (List.replicate 1001 ⟨HEValue.cipher ⟨2, 4, 1⟩, false⟩)).batches.length
      ∧
     oneOutstanding (handle_server_relu_op false 0
        (List.replicate 1001
          ⟨HEValue.cipher ⟨2, 4, 1⟩, false⟩)).trace = false) := by
  have h2 : 2 ≤ (handle_server_relu_op false 0
      (List.replicate 1001
        ⟨HEValue.cipher ⟨2, 4, 1⟩, false⟩)).batches.length := by
    refine relu_batches_count_ge_two false 0 _ ?_
    rw [relu_unknown_replicate false 0 1001 ⟨2, 4, 1⟩]
    simp [max_relu_message_cnt]
  refine ⟨⟨by rfl, claim_c4_amended_one_outstanding.1
    [⟨HEValue.cipher ⟨1, 4, 5⟩, false⟩] [[0]]
    (fun _ => [[⟨HEValue.cipher ⟨0, 4, 5⟩, false⟩]])
    ⟨[[⟨HEValue.cipher ⟨1, 4, 5⟩, false⟩]],
     [⟨HEValue.cipher ⟨0, 4, 5⟩, false⟩],
     [ProtoEv.send 1, ProtoEv.wait]⟩ (by rfl)⟩,
    h2, claim_c4_amended_one_outstanding.2 false 0 _ h2⟩

end HETransformer
